import Mathlib

/-!
Shallow embedding of `src/app.py` (a Streamlit/pandas dashboard for a daily
action plan) and proofs of the specification claims C1..C10.

Tables model pandas DataFrames: a list of column labels and a list of rows,
each row a positional list of cells.  Cells model pandas scalars: strings,
integers, day-granularity datetimes and NaN/NaT (`missing`).  Duplicate
column labels are representable, exactly as in pandas.
-/

namespace PlanoAcao

/-- A pandas scalar value.  `date` is a day-granularity datetime (year, month,
day); `missing` stands for both NaN and NaT. -/
inductive Cell where
  | str (s : String)
  | num (n : Int)
  | date (ymd : Nat × Nat × Nat)
  | missing
deriving DecidableEq

/-- A pandas DataFrame: column labels (duplicates allowed, as in pandas) and
rows of cells aligned positionally with the labels. -/
structure Table where
  cols : List String
  rows : List (List Cell)
deriving DecidableEq

def emptyTable : Table := ⟨[], []⟩

/-! ### Column-key normalization (app.py lines 20-24)

`df.columns.str.lower()`, then `.str.replace('[^a-z0-9]', '_', regex=True)`,
then `.str.replace(r'_{2,}', '_', regex=True)`, then `.str.strip('_')`. -/

/-- Python `str.lower()`, modelled on the ASCII and Latin-1 ranges (which
cover the Portuguese labels this app handles). -/
def lowerChar (c : Char) : Char :=
  if 65 ≤ c.toNat ∧ c.toNat ≤ 90 then Char.ofNat (c.toNat + 32)
  else if 192 ≤ c.toNat ∧ c.toNat ≤ 222 ∧ c.toNat ≠ 215 then Char.ofNat (c.toNat + 32)
  else c

/-- Characters kept by the regex `[^a-z0-9]` replacement (i.e. not replaced). -/
def isKeep (c : Char) : Bool :=
  decide ((97 ≤ c.toNat ∧ c.toNat ≤ 122) ∨ (48 ≤ c.toNat ∧ c.toNat ≤ 57))

/-- `str.replace('[^a-z0-9]', '_', regex=True)`, per character. -/
def repl (c : Char) : Char := if isKeep c then c else '_'

/-- `str.replace(r'_{2,}', '_', regex=True)`: collapse runs of `_`. -/
def collapse : List Char → List Char
  | [] => []
  | [c] => [c]
  | a :: b :: rest =>
    if a = '_' ∧ b = '_' then collapse (b :: rest)
    else a :: collapse (b :: rest)

/-- The underscore test used by `str.strip('_')`. -/
def pUnd (c : Char) : Bool := c == '_'

/-- `str.strip('_')`: drop leading and trailing underscores. -/
def stripChars (l : List Char) : List Char :=
  ((l.dropWhile pUnd).reverse.dropWhile pUnd).reverse

/-- The complete column-key transform of app.py lines 20-24. -/
def normKey (s : String) : String :=
  ⟨stripChars (collapse ((s.data.map lowerChar).map repl))⟩

/-! ### Idempotence machinery for `normKey` -/

/-- A character that can appear in a normalized key: kept by the regex, or an
underscore. -/
def isNormal (c : Char) : Bool := isKeep c || pUnd c

theorem repl_normal (c : Char) : isNormal (repl c) = true := by
  unfold repl isNormal pUnd
  by_cases h : isKeep c = true <;> simp [h]

theorem lowerChar_of_normal {c : Char} (h : isNormal c = true) : lowerChar c = c := by
  unfold isNormal isKeep pUnd at h
  unfold lowerChar
  rcases Bool.or_eq_true_iff.mp h with h1 | h2
  · have := of_decide_eq_true h1
    rw [if_neg (by omega), if_neg (by omega)]
  · have : c = '_' := by
      have := beq_iff_eq.mp h2
      exact this
    subst this
    rw [if_neg (by decide), if_neg (by decide)]

theorem repl_of_normal {c : Char} (h : isNormal c = true) : repl c = c := by
  unfold isNormal pUnd at h
  rcases Bool.or_eq_true_iff.mp h with h1 | h2
  · simp [repl, h1]
  · have : c = '_' := beq_iff_eq.mp h2
    subst this
    decide

theorem mem_collapse {c : Char} : ∀ {l : List Char}, c ∈ collapse l → c ∈ l := by
  intro l
  induction l with
  | nil => simp [collapse]
  | cons a t ih =>
    cases t with
    | nil => simp [collapse]
    | cons b rest =>
      by_cases h : a = '_' ∧ b = '_'
      · intro hm
        rw [collapse, if_pos h] at hm
        exact List.mem_cons_of_mem a (ih hm)
      · intro hm
        rw [collapse, if_neg h] at hm
        rcases List.mem_cons.mp hm with h1 | h1
        · exact h1 ▸ List.mem_cons_self a _
        · exact List.mem_cons_of_mem a (ih h1)

theorem dropWhile_exists_append (p : Char → Bool) (l : List Char) :
    ∃ s, s ++ l.dropWhile p = l := by
  induction l with
  | nil => exact ⟨[], rfl⟩
  | cons a t ih =>
    by_cases h : p a = true
    · obtain ⟨s, hs⟩ := ih
      exact ⟨a :: s, by simp [List.dropWhile_cons, h, hs]⟩
    · exact ⟨[], by simp [List.dropWhile_cons, h]⟩

theorem mem_dropWhile {c : Char} {p : Char → Bool} {l : List Char}
    (h : c ∈ l.dropWhile p) : c ∈ l := by
  obtain ⟨s, hs⟩ := dropWhile_exists_append p l
  rw [← hs]
  exact List.mem_append_right s h

theorem mem_stripChars {c : Char} {l : List Char} (h : c ∈ stripChars l) : c ∈ l := by
  unfold stripChars at h
  rw [List.mem_reverse] at h
  have h1 := mem_dropWhile h
  rw [List.mem_reverse] at h1
  exact mem_dropWhile h1

/-- The no-adjacent-underscores relation: what `collapse` establishes. -/
def RNoAdj (a b : Char) : Prop := ¬(a = '_' ∧ b = '_')

theorem collapse_head (b : Char) (rest : List Char) :
    (collapse (b :: rest)).head? = some b := by
  induction rest generalizing b with
  | nil => rfl
  | cons c rs ih =>
    by_cases h : b = '_' ∧ c = '_'
    · rw [collapse, if_pos h, ih]
      rw [h.1, h.2]
    · rw [collapse, if_neg h]
      rfl

theorem chain_collapse : ∀ (l : List Char), List.Chain' RNoAdj (collapse l) := by
  intro l
  induction l with
  | nil => simp [collapse]
  | cons a t ih =>
    cases t with
    | nil => simp [collapse]
    | cons b rest =>
      by_cases h : a = '_' ∧ b = '_'
      · rw [collapse, if_pos h]
        exact ih
      · rw [collapse, if_neg h]
        rw [List.chain'_cons']
        refine ⟨?_, ih⟩
        intro y hy
        rw [collapse_head b rest] at hy
        cases hy
        exact h

theorem collapse_eq_self : ∀ {l : List Char}, List.Chain' RNoAdj l → collapse l = l := by
  intro l
  induction l with
  | nil => intro _; rfl
  | cons a t ih =>
    cases t with
    | nil => intro _; rfl
    | cons b rest =>
      intro h
      rw [List.chain'_cons] at h
      rw [collapse, if_neg h.1, ih h.2]

theorem chain_dropWhile {p : Char → Bool} : ∀ {l : List Char},
    List.Chain' RNoAdj l → List.Chain' RNoAdj (l.dropWhile p) := by
  intro l
  induction l with
  | nil => intro h; exact h
  | cons a t ih =>
    intro h
    by_cases hp : p a = true
    · rw [List.dropWhile_cons, if_pos hp]
      exact ih h.tail
    · rw [List.dropWhile_cons, if_neg hp]
      exact h

theorem chain_reverse {l : List Char} (h : List.Chain' RNoAdj l) :
    List.Chain' RNoAdj l.reverse := by
  rw [List.chain'_reverse]
  exact h.imp (fun a b hab => fun ⟨h1, h2⟩ => hab ⟨h2, h1⟩)

theorem chain_stripChars {l : List Char} (h : List.Chain' RNoAdj l) :
    List.Chain' RNoAdj (stripChars l) := by
  unfold stripChars
  exact chain_reverse (chain_dropWhile (chain_reverse (chain_dropWhile h)))

theorem dropWhile_head_not {p : Char → Bool} :
    ∀ {l : List Char} {h : Char}, (l.dropWhile p).head? = some h → p h = false := by
  intro l
  induction l with
  | nil => intro h hh; simp [List.dropWhile] at hh
  | cons a t ih =>
    intro h hh
    by_cases hp : p a = true
    · rw [List.dropWhile_cons, if_pos hp] at hh
      exact ih hh
    · rw [List.dropWhile_cons, if_neg hp] at hh
      cases hh
      cases hpa : p a with
      | false => rfl
      | true => exact absurd hpa hp

theorem dropWhile_eq_self_of_head {p : Char → Bool} {l : List Char}
    (h : ∀ c, l.head? = some c → p c = false) : l.dropWhile p = l := by
  cases l with
  | nil => rfl
  | cons a t =>
    rw [List.dropWhile_cons, if_neg]
    rw [h a rfl]
    simp

theorem dropWhile_idem (p : Char → Bool) (l : List Char) :
    (l.dropWhile p).dropWhile p = l.dropWhile p :=
  dropWhile_eq_self_of_head (fun _ hc => dropWhile_head_not hc)

theorem head_append {α : Type} {x y : List α} {c : α} (h : x.head? = some c) :
    (x ++ y).head? = some c := by
  cases x with
  | nil => simp at h
  | cons a t => exact h

theorem stripChars_idem (l : List Char) : stripChars (stripChars l) = stripChars l := by
  unfold stripChars
  obtain ⟨s, hs⟩ := dropWhile_exists_append pUnd (l.dropWhile pUnd).reverse
  have hpre : ((l.dropWhile pUnd).reverse.dropWhile pUnd).reverse ++ s.reverse
      = l.dropWhile pUnd := by
    have := congrArg List.reverse hs
    rw [List.reverse_append, List.reverse_reverse] at this
    exact this
  have hdw : ((l.dropWhile pUnd).reverse.dropWhile pUnd).reverse.dropWhile pUnd
      = ((l.dropWhile pUnd).reverse.dropWhile pUnd).reverse := by
    apply dropWhile_eq_self_of_head
    intro c hc
    apply dropWhile_head_not (l := l) (p := pUnd)
    rw [← hpre]
    exact head_append hc
  rw [hdw, List.reverse_reverse, dropWhile_idem]

theorem map_self {α : Type} (f : α → α) :
    ∀ (l : List α), (∀ c ∈ l, f c = c) → l.map f = l := by
  intro l
  induction l with
  | nil => intro _; rfl
  | cons a t ih =>
    intro h
    rw [List.map_cons, h a (List.mem_cons_self a t),
      ih (fun c hc => h c (List.mem_cons_of_mem a hc))]

/-- Key idempotence fact: every character surviving the transform is normal. -/
theorem normKey_data_normal (s : String) :
    ∀ c ∈ (normKey s).data, isNormal c = true := by
  intro c hc
  have h1 : c ∈ collapse ((s.data.map lowerChar).map repl) := mem_stripChars hc
  have h2 : c ∈ (s.data.map lowerChar).map repl := mem_collapse h1
  obtain ⟨x, _, hx⟩ := List.mem_map.mp h2
  rw [← hx]
  exact repl_normal x

/-- Idempotence of the column-key transform (spec §3, §8). -/
theorem normKey_idem (s : String) : normKey (normKey s) = normKey s := by
  have hnorm := normKey_data_normal s
  have hlower : (normKey s).data.map lowerChar = (normKey s).data :=
    map_self lowerChar _ (fun c hc => lowerChar_of_normal (hnorm c hc))
  have hrepl : (normKey s).data.map repl = (normKey s).data :=
    map_self repl _ (fun c hc => repl_of_normal (hnorm c hc))
  have hchain : List.Chain' RNoAdj (normKey s).data :=
    chain_stripChars (chain_collapse _)
  have hcol : collapse (normKey s).data = (normKey s).data := collapse_eq_self hchain
  show String.mk (stripChars (collapse (((normKey s).data.map lowerChar).map repl)))
      = normKey s
  rw [hlower, hrepl, hcol]
  show String.mk (stripChars (stripChars (collapse ((s.data.map lowerChar).map repl))))
      = normKey s
  rw [stripChars_idem]
  rfl

/-! ### Table access -/

/-- First index of a column label, as used by `df['k']` column access. -/
def idxOf? (k : String) : List String → Option Nat
  | [] => none
  | c :: rest => if c = k then some 0 else (idxOf? k rest).map (· + 1)

def Table.colIdx (t : Table) (k : String) : Option Nat := idxOf? k t.cols

/-- Cell of a row at a column position (out-of-range reads as missing; tables
built from spreadsheets are rectangular, so this never happens in practice). -/
def cellAt (r : List Cell) (i : Nat) : Cell := (r.get? i).getD Cell.missing

/-- The column values of a table at position `i` (a pandas Series). -/
def colVals (t : Table) (i : Nat) : List Cell := t.rows.map (fun r => cellAt r i)

def countKey (cols : List String) (k : String) : Nat :=
  cols.countP (fun c => decide (c = k))

/-! ### Normalization and loading (app.py lines 12-40) -/

/-- `df.columns = df.columns.str...` (lines 20-24): relabel every column with
`normKey`.  pandas keeps colliding columns side by side under the duplicated
label; nothing is overwritten and no row data changes. -/
def renameCols (t : Table) : Table := ⟨t.cols.map normKey, t.rows⟩

def isDigitCh (c : Char) : Bool := decide (48 ≤ c.toNat ∧ c.toNat ≤ 57)

def natOfDigits (l : List Char) : Nat := l.foldl (fun a c => a * 10 + (c.toNat - 48)) 0

/-- The ISO `YYYY-MM-DD` subset of pandas' flexible date parser, which is the
format exercised by the spec's scenarios. -/
def parseIso (s : String) : Option (Nat × Nat × Nat) :=
  match s.data.splitOn '-' with
  | [ys, ms, ds] =>
    if ys ≠ [] ∧ ms ≠ [] ∧ ds ≠ [] ∧ (ys ++ ms ++ ds).all isDigitCh ∧
        1 ≤ natOfDigits ms ∧ natOfDigits ms ≤ 12 ∧
        1 ≤ natOfDigits ds ∧ natOfDigits ds ≤ 31 then
      some (natOfDigits ys, natOfDigits ms, natOfDigits ds)
    else none
  | _ => none

/-- `pd.to_datetime(cell, errors='coerce')` on one cell: datetimes pass
through, date strings parse, NaN becomes NaT (`none`).  Integers are
nanoseconds since the epoch in pandas; at this model's day granularity they
land on 1970-01-01. -/
def parseDate : Cell → Option (Nat × Nat × Nat)
  | .date ymd => some ymd
  | .str s => parseIso s
  | .num _ => some (1970, 1, 1)
  | .missing => none

/-- One row of lines 31-33: parse the `data` cell in place; `none` marks the
row for `dropna`. -/
def coerceRow (i : Nat) (r : List Cell) : Option (List Cell) :=
  match r.get? i with
  | none => none
  | some c => (parseDate c).map (fun ymd => r.set i (Cell.date ymd))

/-- The body of `load_data` after a successful read (lines 20-37): relabel the
columns, then, if a `data` column exists, coerce it to dates and drop the rows
whose date fails to parse.  A table with two columns relabelled to `data`
makes `pd.to_datetime(df['data'])` raise (duplicate selection yields a
DataFrame); the surrounding `except` then returns the empty DataFrame. -/
def normTable (t : Table) : Table :=
  let t1 := renameCols t
  if 2 ≤ countKey t1.cols "data" then emptyTable
  else
    match idxOf? "data" t1.cols with
    | none => t1
    | some i => ⟨t1.cols, t1.rows.filterMap (coerceRow i)⟩

def errPre : String := "Erro ao carregar o arquivo Excel: "

def errSuf : String := ". Verifique se o arquivo está no formato correto e não está corrompido."

/-- `load_data` (lines 12-40).  The argument is the result of
`pd.read_excel`: `.error e` is an unreadable/corrupt payload carrying the
exception's message.  The second component is the `st.error` message shown to
the user, `none` when loading succeeded. -/
def load_data : Except String Table → Table × Option String
  | .error e => (emptyTable, some (errPre ++ e ++ errSuf))
  | .ok t => (normTable t, none)

/-! ### Filters (app.py lines 61-87) -/

/-- The filter state collected from the sidebar controls. -/
structure FilterSpec where
  selected_days : List String
  search_focus : String

/-- `Series.isin(selected_days)` on one cell. -/
def cellIsin (c : Cell) (sel : List String) : Bool :=
  match c with
  | .str s => decide (s ∈ sel)
  | _ => false

/-- Weekday filter (lines 65-78): with the column present, a non-empty
selection keeps the member rows, while an empty selection is falsy in Python
and leaves the table unfiltered; a missing column also leaves it unfiltered. -/
def filterWeekdays (df : Table) (sel : List String) : Table :=
  if "dia_da_semana" ∈ df.cols then
    if sel = [] then df
    else
      match df.colIdx "dia_da_semana" with
      | some i => ⟨df.cols, df.rows.filter (fun r => cellIsin (cellAt r i) sel)⟩
      | none => df
  else df

def leadsWith : List Char → List Char → Bool
  | [], _ => true
  | _ :: _, [] => false
  | a :: as, b :: bs => a == b && leadsWith as bs

def hasSub (sub : List Char) : List Char → Bool
  | [] => leadsWith sub []
  | c :: t => leadsWith sub (c :: t) || hasSub sub t

/-- `str.contains(kw, case=False)`: case-insensitive substring test. -/
def containsCI (hay kw : String) : Bool :=
  hasSub (kw.data.map lowerChar) (hay.data.map lowerChar)

/-- `df_filtered['foco_principal_do_dia'].astype(str)` on one cell.  Note that
`astype(str)` renders NaN as the literal string "nan". -/
def cellToStr : Cell → String
  | .str s => s
  | .num n => toString n
  | .date ymd =>
    (toString ymd.1) ++ "-" ++ (toString ymd.2.1) ++ "-" ++ (toString ymd.2.2)
  | .missing => "nan"

/-- Keyword filter (lines 81-87): with the column present and a non-empty
keyword, keep the rows whose stringified focus value contains the keyword
case-insensitively.  Because `astype(str)` runs first, no NaN reaches
`str.contains`, so its `na=False` argument never fires. -/
def filterFocus (df : Table) (kw : String) : Table :=
  if "foco_principal_do_dia" ∈ df.cols then
    if kw = "" then df
    else
      match df.colIdx "foco_principal_do_dia" with
      | some i => ⟨df.cols, df.rows.filter (fun r => containsCI (cellToStr (cellAt r i)) kw)⟩
      | none => df
  else df

/-- The composed filter pipeline (weekday filter, then keyword filter). -/
def filtered (df : Table) (fs : FilterSpec) : Table :=
  filterFocus (filterWeekdays df fs.selected_days) fs.search_focus

/-! ### value_counts (used at lines 97, 179, 198) -/

/-- Distinct non-NaN values in first-encountered order (the group keys of
`value_counts`). -/
def dedupFirst : List Cell → List Cell
  | [] => []
  | c :: rest =>
    if c = Cell.missing then dedupFirst rest
    else c :: (dedupFirst rest).filter (fun x => decide (x ≠ c))

def countVal (vals : List Cell) (v : Cell) : Nat :=
  vals.countP (fun x => decide (x = v))

/-- Stable descending insertion by count: an element is placed after every
earlier element whose count is at least as large, preserving
first-encountered order among ties. -/
def insertDesc (p : Cell × Nat) : List (Cell × Nat) → List (Cell × Nat)
  | [] => [p]
  | q :: rest => if q.2 ≤ p.2 then p :: q :: rest else q :: insertDesc p rest

def sortDesc : List (Cell × Nat) → List (Cell × Nat)
  | [] => []
  | p :: rest => insertDesc p (sortDesc rest)

/-- `Series.value_counts()`: counts of the distinct non-NaN values, sorted by
count descending, ties in first-encountered order. -/
def valueCounts (vals : List Cell) : List (Cell × Nat) :=
  sortDesc ((dedupFirst vals).map (fun v => (v, countVal vals v)))

/-! ### Summary metrics (app.py lines 89-105) -/

def total_records (df : Table) : Nat := df.rows.length

/-- Line 97-98: the most frequent weekday value, `"N/A"` when the filtered
column has no countable value, `none` (an info placeholder) when the column is
absent. -/
def top_weekday (df : Table) : Option Cell :=
  match df.colIdx "dia_da_semana" with
  | none => none
  | some i =>
    match valueCounts (colVals df i) with
    | [] => some (Cell.str "N/A")
    | p :: _ => some p.1

/-- Line 102-103: `nunique()` of the focus column (NaN excluded), `none` when
the column is absent. -/
def distinct_focus (df : Table) : Option Nat :=
  match df.colIdx "foco_principal_do_dia" with
  | none => none
  | some i => some (dedupFirst (colVals df i)).length

/-! ### Today's actions (app.py lines 109-137) -/

/-- Lines 113-115: the rows whose date equals today; `none` (an info
placeholder) when the `data` column is absent. -/
def today_actions (df : Table) (today : Nat × Nat × Nat) : Option (List (List Cell)) :=
  match df.colIdx "data" with
  | none => none
  | some i => some (df.rows.filter (fun r => decide (cellAt r i = Cell.date today)))

/-! ### Daily detail list (app.py lines 141-169) -/

def dateCode (ymd : Nat × Nat × Nat) : Nat := (ymd.1 * 100 + ymd.2.1) * 100 + ymd.2.2

/-- Sort key order used by `sort_values(by='data')`: dates ascending, with
non-date cells (NaT) last, matching pandas' default `na_position='last'`.
The source relies on the sort library's default tie order; this model keeps
ties in input order. -/
def cellKeyLE (a b : Cell) : Bool :=
  match a, b with
  | .date x, .date y => decide (dateCode x ≤ dateCode y)
  | .date _, _ => true
  | _, .date _ => false
  | _, _ => true

def insertRow (i : Nat) (r : List Cell) : List (List Cell) → List (List Cell)
  | [] => [r]
  | q :: rest =>
    if cellKeyLE (cellAt q i) (cellAt r i) then q :: insertRow i r rest
    else r :: q :: rest

def sortRows (i : Nat) : List (List Cell) → List (List Cell)
  | [] => []
  | r :: rest => insertRow i r (sortRows i rest)

def pad2 (n : Nat) : String := if n < 10 then "0" ++ toString n else toString n

def pad4 (n : Nat) : String :=
  if n < 10 then "000" ++ toString n
  else if n < 100 then "00" ++ toString n
  else if n < 1000 then "0" ++ toString n
  else toString n

/-- `strftime('%d/%m/%Y')`. -/
def fmtDate (ymd : Nat × Nat × Nat) : String :=
  pad2 ymd.2.2 ++ "/" ++ pad2 ymd.2.1 ++ "/" ++ pad4 ymd.1

/-- Line 150: `row['data'].strftime('%d/%m/%Y') if pd.notna(row['data']) else
'Data Não Informada'`. -/
def display_date (r : List Cell) (i : Nat) : String :=
  match r.get? i with
  | some (Cell.date ymd) => fmtDate ymd
  | _ => "Data Não Informada"

/-- Lines 143-148: for a non-empty filtered table the code runs
`df_filtered.sort_values(by='data')` with no check that `data` exists; a
missing column raises `KeyError` (modelled as `.error`).  An empty table skips
the sort and shows a placeholder (`.ok none`). -/
def daily_detail (df : Table) : Except String (Option (List (List Cell))) :=
  if df.rows = [] then .ok none
  else
    match df.colIdx "data" with
    | none => .error "KeyError: data"
    | some i => .ok (some (sortRows i df.rows))

/-! ### Charts (app.py lines 173-209) -/

/-- The fixed canonical weekday order of line 197. -/
def day_order : List String :=
  ["Domingo", "Segunda-feira", "Terça-feira", "Quarta-feira", "Quinta-feira",
   "Sexta-feira", "Sábado"]

/-- `Series.reindex` lookup: the count recorded for `v`, with `fillna(0)`. -/
def lookupCount (vc : List (Cell × Nat)) (v : Cell) : Nat :=
  ((vc.find? (fun p => decide (p.1 = v))).map Prod.snd).getD 0

/-- Lines 197-199: `value_counts().reindex(day_order).fillna(0)`, keyed by the
fixed 7-day order; `none` when the weekday column is absent (`KeyError`). -/
def day_counts (df : Table) : Option (List (String × Nat)) :=
  match df.colIdx "dia_da_semana" with
  | none => none
  | some i =>
    some (day_order.map (fun d => (d, lookupCount (valueCounts (colVals df i)) (Cell.str d))))

/-- The weekday chart input, produced only under the guard of line 194. -/
def weekday_histogram (df : Table) : Option (List (String × Nat)) :=
  if "dia_da_semana" ∈ df.cols ∧ df.rows ≠ [] then day_counts df else none

/-- Lines 177-182: `value_counts()` of the focus column, truncated by
`head(10)` for the chart; `none` when the guard of line 177 fails. -/
def focus_histogram (df : Table) : Option (List (Cell × Nat)) :=
  if "foco_principal_do_dia" ∈ df.cols ∧ df.rows ≠ [] then
    match df.colIdx "foco_principal_do_dia" with
    | none => none
    | some i => some ((valueCounts (colVals df i)).take 10)
  else none

/-! ### Lemmas: normalization is idempotent (C4) -/

theorem cols_norm_fixed (t : Table) :
    (renameCols t).cols.map normKey = (renameCols t).cols := by
  apply map_self
  intro c hc
  obtain ⟨x, _, rfl⟩ := List.mem_map.mp hc
  exact normKey_idem x

theorem renameCols_idem (t : Table) : renameCols (renameCols t) = renameCols t := by
  show Table.mk ((renameCols t).cols.map normKey) t.rows = renameCols t
  rw [cols_norm_fixed]
  rfl

theorem lt_of_getSome {α : Type} : ∀ {l : List α} {i : Nat} {a : α},
    l.get? i = some a → i < l.length := by
  intro l
  induction l with
  | nil => intro i a h; simp [List.get?] at h
  | cons b t ih =>
    intro i a h
    cases i with
    | zero => simp
    | succ j =>
      have := ih (i := j) h
      simp only [List.length_cons]
      omega

theorem getSet {l : List Cell} : ∀ {i : Nat}, i < l.length →
    ∀ (a : Cell), (l.set i a).get? i = some a := by
  induction l with
  | nil => intro i h a; simp at h
  | cons b t ih =>
    intro i h a
    cases i with
    | zero => rfl
    | succ j =>
      have hj : j < t.length := by simp at h; omega
      exact ih hj a

theorem setSetSame : ∀ (l : List Cell) (i : Nat) (a : Cell),
    (l.set i a).set i a = l.set i a := by
  intro l
  induction l with
  | nil => intro i a; rfl
  | cons b t ih =>
    intro i a
    cases i with
    | zero => rfl
    | succ j => show (b :: (t.set j a).set j a) = b :: t.set j a; rw [ih]

theorem filterMapSelf {α : Type} (f : α → Option α) :
    ∀ (l : List α), (∀ x ∈ l, f x = some x) → l.filterMap f = l := by
  intro l
  induction l with
  | nil => intro _; rfl
  | cons a t ih =>
    intro h
    rw [List.filterMap_cons, h a (List.mem_cons_self a t),
      ih (fun x hx => h x (List.mem_cons_of_mem a hx))]

/-- Re-coercing an already-coerced row is the identity. -/
theorem coerceRow_stable {i : Nat} {r r2 : List Cell}
    (h : coerceRow i r = some r2) : coerceRow i r2 = some r2 := by
  unfold coerceRow at h ⊢
  cases hg : r.get? i with
  | none => simp only [hg] at h; exact Option.noConfusion h
  | some c =>
    simp only [hg] at h
    cases hp : parseDate c with
    | none =>
      simp only [hp, Option.map_none'] at h
      exact Option.noConfusion h
    | some ymd =>
      simp only [hp, Option.map_some'] at h
      have hr2 : r2 = r.set i (Cell.date ymd) := (Option.some.inj h).symm
      have hget : r2.get? i = some (Cell.date ymd) := by
        rw [hr2]
        exact getSet (lt_of_getSome hg) _
      simp only [hget, parseDate, Option.map_some']
      rw [hr2, setSetSame]

theorem normTable_empty : normTable emptyTable = emptyTable := rfl

theorem normTable_idem (t : Table) : normTable (normTable t) = normTable t := by
  by_cases hdup : 2 ≤ countKey (renameCols t).cols "data"
  · have h1 : normTable t = emptyTable := by
      simp only [normTable]
      rw [if_pos hdup]
    rw [h1, normTable_empty]
  · cases hidx : idxOf? "data" (renameCols t).cols with
    | none =>
      have h1 : normTable t = renameCols t := by
        simp only [normTable]
        rw [if_neg hdup, hidx]
      rw [h1]
      simp only [normTable]
      rw [renameCols_idem, if_neg hdup, hidx]
    | some i =>
      have h1 : normTable t =
          ⟨(renameCols t).cols, (renameCols t).rows.filterMap (coerceRow i)⟩ := by
        simp only [normTable]
        rw [if_neg hdup, hidx]
      rw [h1]
      have hren : renameCols ⟨(renameCols t).cols, (renameCols t).rows.filterMap (coerceRow i)⟩
          = ⟨(renameCols t).cols, (renameCols t).rows.filterMap (coerceRow i)⟩ := by
        show Table.mk ((renameCols t).cols.map normKey) _ = _
        rw [cols_norm_fixed]
      simp only [normTable]
      rw [hren, if_neg hdup]
      simp only [hidx]
      have hself : ((renameCols t).rows.filterMap (coerceRow i)).filterMap (coerceRow i)
          = (renameCols t).rows.filterMap (coerceRow i) := by
        apply filterMapSelf
        intro x hx
        obtain ⟨r, _, hr⟩ := List.mem_filterMap.mp hx
        exact coerceRow_stable hr
      rw [hself]

/-- C4: the column-key transform (lowercase; replace non-`[a-z0-9]` by `_`;
collapse runs of `_`; strip leading/trailing `_`) is idempotent on every
label, and consequently normalizing a table twice equals normalizing it
once. -/
theorem c4_normalize_idempotent :
    (∀ s : String, normKey (normKey s) = normKey s) ∧
    (∀ t : Table, normTable (normTable t) = normTable t) :=
  ⟨normKey_idem, normTable_idem⟩

/-! ### Lemmas: locating columns -/

theorem mem_idxOf {k : String} : ∀ {l : List String}, k ∈ l → ∃ i, idxOf? k l = some i := by
  intro l
  induction l with
  | nil => intro h; simp at h
  | cons c rest ih =>
    intro h
    by_cases hc : c = k
    · exact ⟨0, by simp [idxOf?, hc]⟩
    · have hk : k ∈ rest := by
        rcases List.mem_cons.mp h with h1 | h1
        · exact absurd h1.symm hc
        · exact h1
      obtain ⟨i, hi⟩ := ih hk
      exact ⟨i + 1, by simp [idxOf?, hc, hi]⟩

theorem idxOf?_none {k : String} : ∀ {l : List String}, idxOf? k l = none → k ∉ l := by
  intro l
  induction l with
  | nil => intro _; simp
  | cons c rest ih =>
    intro h
    unfold idxOf? at h
    by_cases hc : c = k
    · rw [if_pos hc] at h
      exact Option.noConfusion h
    · rw [if_neg hc] at h
      have h2 : idxOf? k rest = none := Option.map_eq_none'.mp h
      have h3 := ih h2
      simp only [List.mem_cons]
      rintro (h4 | h4)
      · exact hc h4.symm
      · exact h3 h4

/-- When the canonical table has a `data` column, `normTable` took the
coerce-and-drop branch of lines 30-33. -/
theorem normTable_data_branch {t : Table} (h : "data" ∈ (normTable t).cols) :
    ∃ i, idxOf? "data" (renameCols t).cols = some i ∧
      normTable t = ⟨(renameCols t).cols, t.rows.filterMap (coerceRow i)⟩ := by
  by_cases hdup : 2 ≤ countKey (renameCols t).cols "data"
  · exfalso
    have h1 : normTable t = emptyTable := by
      simp only [normTable]
      rw [if_pos hdup]
    rw [h1] at h
    simp [emptyTable] at h
  · cases hidx : idxOf? "data" (renameCols t).cols with
    | none =>
      exfalso
      have h1 : normTable t = renameCols t := by
        simp only [normTable]
        rw [if_neg hdup, hidx]
      rw [h1] at h
      exact idxOf?_none hidx h
    | some i =>
      refine ⟨i, rfl, ?_⟩
      simp only [normTable]
      rw [if_neg hdup]
      simp only [hidx]
      rfl

/-- The end-to-end scenario table of spec §8. -/
def scenarioTable : Table :=
  ⟨["Data", "Dia da Semana", "Foco Principal do Dia"],
   [[.str "2024-01-01", .str "Segunda-feira", .str "Planejamento"],
    [.str "2024-01-02", .str "Terça-feira", .str "Execução"],
    [.str "not-a-date", .str "Quarta-feira", .str "Revisão"]]⟩

/-- C5: when the canonical form has a `data` column, normalization keeps
exactly the rows whose `data` cell parses (each with its cell replaced by the
parsed date) and drops the others entirely, so the output row count is at most
the input row count; the three-row scenario with dates
[2024-01-01, 2024-01-02, not-a-date] normalizes to exactly 2 rows. -/
theorem c5_unparsable_date_rows_dropped :
    (∀ t : Table, "data" ∈ (normTable t).cols →
      ∃ i, idxOf? "data" (renameCols t).cols = some i ∧
        normTable t = ⟨(renameCols t).cols, t.rows.filterMap (coerceRow i)⟩ ∧
        (normTable t).rows.length ≤ t.rows.length) ∧
    (normTable scenarioTable).rows.length = 2 ∧ scenarioTable.rows.length = 3 := by
  refine ⟨?_, by decide, rfl⟩
  intro t h
  obtain ⟨i, hi, heq⟩ := normTable_data_branch h
  refine ⟨i, hi, heq, ?_⟩
  rw [heq]
  exact List.length_filterMap_le (coerceRow i) t.rows

/-- Witness for C5 at the scenario table of spec §8. -/
theorem c5_witness :
    ("data" ∈ (normTable scenarioTable).cols) ∧
    (normTable scenarioTable).rows.length ≤ scenarioTable.rows.length := by
  refine ⟨by decide, ?_⟩
  obtain ⟨i, -, -, hlen⟩ := c5_unparsable_date_rows_dropped.1 scenarioTable (by decide)
  exact hlen

/-! ### C3: empty weekday selection leaves the table unfiltered -/

/-- C3: if the `dia_da_semana` column is present and the selected set is
empty, the filtered table is the whole table — select-all semantics. -/
theorem c3_empty_selection_selects_all (t : Table) (h : "dia_da_semana" ∈ t.cols) :
    filterWeekdays t [] = t := by
  unfold filterWeekdays
  rw [if_pos h, if_pos rfl]

def tC3 : Table := ⟨["dia_da_semana"], [[Cell.str "Domingo"], [Cell.str "Sábado"]]⟩

/-- Witness for C3 at a concrete two-row table. -/
theorem c3_witness : ("dia_da_semana" ∈ tC3.cols) ∧ filterWeekdays tC3 [] = tC3 :=
  ⟨by decide, c3_empty_selection_selects_all tC3 (by decide)⟩

/-! ### C10: every normalized row carries a valid date -/

theorem slash_mem_fmtDate (ymd : Nat × Nat × Nat) : '/' ∈ (fmtDate ymd).data := by
  unfold fmtDate
  rw [String.data_append, String.data_append, String.data_append, String.data_append]
  apply List.mem_append_left
  apply List.mem_append_right
  decide

theorem fmtDate_ne_fallback (ymd : Nat × Nat × Nat) :
    fmtDate ymd ≠ "Data Não Informada" := by
  intro heq
  have h1 := slash_mem_fmtDate ymd
  rw [heq] at h1
  exact absurd h1 (by decide)

/-- C10: in a normalized table with a `data` column, every row holds a parsed
date at the `data` position, so the daily-detail renderer always formats a
date and its 'Data Não Informada' fallback is unreachable. -/
theorem c10_fallback_unreachable (t : Table) (h : "data" ∈ (normTable t).cols) :
    ∃ i, idxOf? "data" (normTable t).cols = some i ∧
      ∀ r ∈ (normTable t).rows, ∃ ymd, r.get? i = some (Cell.date ymd) ∧
        display_date r i = fmtDate ymd ∧ display_date r i ≠ "Data Não Informada" := by
  obtain ⟨i, hi, heq⟩ := normTable_data_branch h
  have hcols : (normTable t).cols = (renameCols t).cols := by rw [heq]
  refine ⟨i, by rw [hcols]; exact hi, ?_⟩
  intro r hr
  rw [heq] at hr
  obtain ⟨r0, -, hro⟩ := List.mem_filterMap.mp hr
  unfold coerceRow at hro
  cases hg : r0.get? i with
  | none =>
    simp only [hg] at hro
    exact Option.noConfusion hro
  | some c =>
    simp only [hg] at hro
    cases hp : parseDate c with
    | none =>
      simp only [hp, Option.map_none'] at hro
      exact Option.noConfusion hro
    | some ymd =>
      simp only [hp, Option.map_some'] at hro
      have hr0 : r = r0.set i (Cell.date ymd) := (Option.some.inj hro).symm
      have hget : r.get? i = some (Cell.date ymd) := by
        rw [hr0]
        exact getSet (lt_of_getSome hg) _
      refine ⟨ymd, hget, ?_, ?_⟩
      · simp only [display_date, hget]
      · simp only [display_date, hget]
        exact fmtDate_ne_fallback ymd

/-- Witness for C10 at the scenario table. -/
theorem c10_witness :
    ("data" ∈ (normTable scenarioTable).cols) ∧
    (∃ i, idxOf? "data" (normTable scenarioTable).cols = some i ∧
      ∀ r ∈ (normTable scenarioTable).rows, ∃ ymd, r.get? i = some (Cell.date ymd) ∧
        display_date r i = fmtDate ymd ∧ display_date r i ≠ "Data Não Informada") :=
  ⟨by decide, c10_fallback_unreachable scenarioTable (by decide)⟩

/-! ### Lemmas: value_counts -/

/-- Descending-count order between adjacent histogram entries. -/
def RDesc (a b : Cell × Nat) : Prop := b.2 ≤ a.2

theorem insertDesc_head (p : Cell × Nat) (l : List (Cell × Nat)) :
    (insertDesc p l).head? = some p ∨ (insertDesc p l).head? = l.head? := by
  cases l with
  | nil => left; rfl
  | cons q rest =>
    by_cases h : q.2 ≤ p.2
    · left
      simp only [insertDesc]
      rw [if_pos h]
      rfl
    · right
      simp only [insertDesc]
      rw [if_neg h]
      rfl

theorem chain_insertDesc {p : Cell × Nat} :
    ∀ {l}, List.Chain' RDesc l → List.Chain' RDesc (insertDesc p l) := by
  intro l
  induction l with
  | nil => intro _; simp [insertDesc]
  | cons q rest ih =>
    intro h
    by_cases hq : q.2 ≤ p.2
    · simp only [insertDesc]
      rw [if_pos hq]
      rw [List.chain'_cons']
      exact ⟨fun y hy => by cases hy; exact hq, h⟩
    · simp only [insertDesc]
      rw [if_neg hq]
      rw [List.chain'_cons']
      refine ⟨?_, ih h.tail⟩
      intro y hy
      rcases insertDesc_head p rest with hh | hh
      · rw [hh] at hy
        cases hy
        show p.2 ≤ q.2
        omega
      · rw [hh] at hy
        exact (List.chain'_cons'.mp h).1 y hy

theorem chain_sortDesc (l : List (Cell × Nat)) : List.Chain' RDesc (sortDesc l) := by
  induction l with
  | nil => simp [sortDesc]
  | cons p rest ih => exact chain_insertDesc ih

theorem perm_insertDesc (p : Cell × Nat) :
    ∀ (l : List (Cell × Nat)), List.Perm (insertDesc p l) (p :: l) := by
  intro l
  induction l with
  | nil => exact List.Perm.refl _
  | cons q rest ih =>
    by_cases hq : q.2 ≤ p.2
    · simp only [insertDesc]
      rw [if_pos hq]
    · simp only [insertDesc]
      rw [if_neg hq]
      exact (ih.cons q).trans (List.Perm.swap p q rest)

theorem perm_sortDesc (l : List (Cell × Nat)) : List.Perm (sortDesc l) l := by
  induction l with
  | nil => exact List.Perm.refl _
  | cons p rest ih => exact (perm_insertDesc p (sortDesc rest)).trans (ih.cons p)

theorem dedupFirst_cons_missing (rest : List Cell) :
    dedupFirst (Cell.missing :: rest) = dedupFirst rest := by
  simp [dedupFirst]

theorem dedupFirst_cons {c : Cell} (hc : c ≠ Cell.missing) (rest : List Cell) :
    dedupFirst (c :: rest) = c :: (dedupFirst rest).filter (fun x => decide (x ≠ c)) := by
  simp only [dedupFirst]
  rw [if_neg hc]

theorem nodup_dedupFirst : ∀ (l : List Cell), (dedupFirst l).Nodup := by
  intro l
  induction l with
  | nil => simp [dedupFirst]
  | cons c rest ih =>
    by_cases hc : c = Cell.missing
    · subst hc
      rw [dedupFirst_cons_missing]
      exact ih
    · rw [dedupFirst_cons hc]
      rw [List.nodup_cons]
      refine ⟨?_, List.Nodup.filter _ ih⟩
      intro hmem
      have := (List.mem_filter.mp hmem).2
      simp at this

theorem mem_dedupFirst {v : Cell} :
    ∀ {l : List Cell}, v ∈ dedupFirst l ↔ v ∈ l ∧ v ≠ Cell.missing := by
  intro l
  induction l with
  | nil => simp [dedupFirst]
  | cons c rest ih =>
    by_cases hc : c = Cell.missing
    · subst hc
      rw [dedupFirst_cons_missing]
      rw [ih, List.mem_cons]
      constructor
      · rintro ⟨h1, h2⟩
        exact ⟨Or.inr h1, h2⟩
      · rintro ⟨h1 | h1, h2⟩
        · exact absurd h1 h2
        · exact ⟨h1, h2⟩
    · rw [dedupFirst_cons hc]
      rw [List.mem_cons, List.mem_filter, ih, List.mem_cons]
      simp only [decide_eq_true_eq]
      constructor
      · rintro (h1 | ⟨⟨h1, h2⟩, h3⟩)
        · exact ⟨Or.inl h1, h1 ▸ hc⟩
        · exact ⟨Or.inr h1, h2⟩
      · rintro ⟨h1 | h1, h2⟩
        · exact Or.inl h1
        · by_cases hvc : v = c
          · exact Or.inl hvc
          · exact Or.inr ⟨⟨h1, h2⟩, hvc⟩

theorem countVal_eq_zero {vals : List Cell} {v : Cell} :
    countVal vals v = 0 ↔ v ∉ vals := by
  unfold countVal
  rw [List.countP_eq_zero]
  constructor
  · intro h hv
    have := h v hv
    simp at this
  · intro hv a ha
    simp only [decide_eq_true_eq]
    intro he
    exact hv (he ▸ ha)

theorem find_key_of_mem : ∀ {l : List (Cell × Nat)} {v : Cell} {n : Nat},
    (l.map Prod.fst).Nodup → (v, n) ∈ l →
    l.find? (fun p => decide (p.1 = v)) = some (v, n) := by
  intro l
  induction l with
  | nil => intro _ _ _ h; simp at h
  | cons q t ih =>
    intro v n hnd hmem
    rw [List.map_cons] at hnd
    have hnd2 := List.nodup_cons.mp hnd
    by_cases hq : q.1 = v
    · have hqv : q = (v, n) := by
        rcases List.mem_cons.mp hmem with h1 | h1
        · exact h1.symm
        · exfalso
          have hv : v ∈ t.map Prod.fst := List.mem_map.mpr ⟨(v, n), h1, rfl⟩
          exact hnd2.1 (hq ▸ hv)
      rw [List.find?_cons]
      have hdq : decide (q.1 = v) = true := by simp [hq]
      rw [hdq, hqv]
    · have hmem2 : (v, n) ∈ t := by
        rcases List.mem_cons.mp hmem with h1 | h1
        · exact absurd (congrArg Prod.fst h1).symm hq
        · exact h1
      rw [List.find?_cons]
      have hdq : decide (q.1 = v) = false := by simp [hq]
      rw [hdq]
      exact ih hnd2.2 hmem2

theorem find_key_none {l : List (Cell × Nat)} {v : Cell}
    (h : ∀ p ∈ l, p.1 ≠ v) : l.find? (fun p => decide (p.1 = v)) = none := by
  rw [List.find?_eq_none]
  intro x hx
  simpa using h x hx

/-- Bridge: the reindex lookup into `value_counts` is the plain occurrence
count of the value. -/
theorem lookup_valueCounts (vals : List Cell) (v : Cell) (hv : v ≠ Cell.missing) :
    lookupCount (valueCounts vals) v = countVal vals v := by
  unfold lookupCount valueCounts
  have hperm : List.Perm (sortDesc ((dedupFirst vals).map (fun w => (w, countVal vals w))))
      ((dedupFirst vals).map (fun w => (w, countVal vals w))) := perm_sortDesc _
  have hk1 : ((dedupFirst vals).map (fun w => (w, countVal vals w))).map Prod.fst
      = dedupFirst vals := by
    rw [List.map_map]
    exact List.map_id _
  have hkeys : ((sortDesc ((dedupFirst vals).map (fun w => (w, countVal vals w)))).map
      Prod.fst).Nodup := by
    rw [(hperm.map Prod.fst).nodup_iff, hk1]
    exact nodup_dedupFirst vals
  by_cases hmem : v ∈ vals
  · have hd : v ∈ dedupFirst vals := mem_dedupFirst.mpr ⟨hmem, hv⟩
    have hp : (v, countVal vals v) ∈ (dedupFirst vals).map (fun w => (w, countVal vals w)) :=
      List.mem_map.mpr ⟨v, hd, rfl⟩
    have hps : (v, countVal vals v) ∈
        sortDesc ((dedupFirst vals).map (fun w => (w, countVal vals w))) :=
      hperm.mem_iff.mpr hp
    rw [find_key_of_mem hkeys hps]
    rfl
  · have hnone : ∀ p ∈ sortDesc ((dedupFirst vals).map (fun w => (w, countVal vals w))),
        p.1 ≠ v := by
      intro p hp
      have hp2 := hperm.mem_iff.mp hp
      obtain ⟨w, hw, rfl⟩ := List.mem_map.mp hp2
      intro he
      exact hmem (he ▸ (mem_dedupFirst.mp hw).1)
    rw [find_key_none hnone]
    exact ((countVal_eq_zero.mpr hmem).symm : (0 : Nat) = countVal vals v)

theorem countP_mem_cons (vals : List Cell) (d : Cell) (ds : List Cell) (hd : d ∉ ds) :
    vals.countP (fun x => decide (x ∈ (d :: ds))) =
      vals.countP (fun x => decide (x = d)) + vals.countP (fun x => decide (x ∈ ds)) := by
  induction vals with
  | nil => rfl
  | cons w ws ih =>
    have key : (if decide (w ∈ d :: ds) = true then 1 else 0) =
        (if decide (w = d) = true then 1 else 0) +
          (if decide (w ∈ ds) = true then 1 else 0) := by
      by_cases h1 : w = d
      · subst h1
        simp [hd]
      · by_cases h2 : w ∈ ds
        · simp [h1, h2]
        · simp [h1, h2]
    rw [List.countP_cons, List.countP_cons, List.countP_cons, ih, key]
    omega

theorem sum_counts (vals : List Cell) : ∀ (ds : List Cell), ds.Nodup →
    (ds.map (fun v => countVal vals v)).sum =
      vals.countP (fun x => decide (x ∈ ds)) := by
  intro ds
  induction ds with
  | nil =>
    intro _
    simp [List.countP_eq_zero]
  | cons d rest ih =>
    intro h
    have hnd := List.nodup_cons.mp h
    rw [List.map_cons, List.sum_cons, ih hnd.2, countP_mem_cons vals d rest hnd.1]
    rfl

/-! ### C7: weekday histogram shape -/

/-- C7: with a `dia_da_semana` column present, the weekday histogram has
exactly 7 entries keyed in the fixed canonical order, every count is ≥ 0
(absent days count 0 rather than being omitted), and the counts sum to at
most the row count, with equality when every weekday value is one of the 7
canonical labels. -/
theorem c7_weekday_histogram_shape (df : Table) (h : "dia_da_semana" ∈ df.cols) :
    ∃ i hg, df.colIdx "dia_da_semana" = some i ∧ day_counts df = some hg ∧
      hg.length = 7 ∧ hg.map Prod.fst = day_order ∧ (∀ p ∈ hg, 0 ≤ p.2) ∧
      (hg.map Prod.snd).sum ≤ df.rows.length ∧
      ((∀ v ∈ colVals df i, v ∈ day_order.map Cell.str) →
        (hg.map Prod.snd).sum = df.rows.length) := by
  obtain ⟨i, hi⟩ := mem_idxOf h
  refine ⟨i, day_order.map
    (fun d => (d, lookupCount (valueCounts (colVals df i)) (Cell.str d))), hi, ?_, ?_, ?_, ?_, ?_, ?_⟩
  · unfold day_counts
    show (match df.colIdx "dia_da_semana" with
      | none => none
      | some i => some (day_order.map
          (fun d => (d, lookupCount (valueCounts (colVals df i)) (Cell.str d))))) = _
    rw [show df.colIdx "dia_da_semana" = some i from hi]
  · rw [List.length_map]
    rfl
  · rw [List.map_map]
    exact List.map_id _
  · intro p _
    exact Nat.zero_le _
  · rw [List.map_map]
    have hcongr : day_order.map
        ((fun p : String × Nat => p.2) ∘
          (fun d => (d, lookupCount (valueCounts (colVals df i)) (Cell.str d))))
        = day_order.map (fun d => countVal (colVals df i) (Cell.str d)) := by
      apply List.map_congr_left
      intro d _
      exact lookup_valueCounts (colVals df i) (Cell.str d) (by simp)
    rw [hcongr]
    have hmm : day_order.map (fun d => countVal (colVals df i) (Cell.str d))
        = (day_order.map Cell.str).map (fun v => countVal (colVals df i) v) := by
      rw [List.map_map]
      rfl
    rw [hmm, sum_counts (colVals df i) (day_order.map Cell.str) (by decide)]
    calc (colVals df i).countP (fun x => decide (x ∈ day_order.map Cell.str))
        ≤ (colVals df i).length := List.countP_le_length _
      _ = df.rows.length := List.length_map _ _
  · intro hall
    rw [List.map_map]
    have hcongr : day_order.map
        ((fun p : String × Nat => p.2) ∘
          (fun d => (d, lookupCount (valueCounts (colVals df i)) (Cell.str d))))
        = day_order.map (fun d => countVal (colVals df i) (Cell.str d)) := by
      apply List.map_congr_left
      intro d _
      exact lookup_valueCounts (colVals df i) (Cell.str d) (by simp)
    rw [hcongr]
    have hmm : day_order.map (fun d => countVal (colVals df i) (Cell.str d))
        = (day_order.map Cell.str).map (fun v => countVal (colVals df i) v) := by
      rw [List.map_map]
      rfl
    rw [hmm, sum_counts (colVals df i) (day_order.map Cell.str) (by decide)]
    have : (colVals df i).countP (fun x => decide (x ∈ day_order.map Cell.str))
        = (colVals df i).length :=
      List.countP_eq_length.mpr (fun a ha => by simpa using hall a ha)
    rw [this]
    exact List.length_map _ _

def tC7 : Table :=
  ⟨["dia_da_semana"], [[Cell.str "Domingo"], [Cell.str "Sábado"], [Cell.str "Domingo"]]⟩

/-- Witness for C7 at a concrete three-row table. -/
theorem c7_witness :
    ("dia_da_semana" ∈ tC7.cols) ∧
    day_counts tC7 = some [("Domingo", 2), ("Segunda-feira", 0), ("Terça-feira", 0),
      ("Quarta-feira", 0), ("Quinta-feira", 0), ("Sexta-feira", 0), ("Sábado", 1)] ∧
    (∃ i hg, tC7.colIdx "dia_da_semana" = some i ∧ day_counts tC7 = some hg ∧
      hg.length = 7 ∧ hg.map Prod.fst = day_order ∧ (∀ p ∈ hg, 0 ≤ p.2) ∧
      (hg.map Prod.snd).sum ≤ tC7.rows.length ∧
      ((∀ v ∈ colVals tC7 i, v ∈ day_order.map Cell.str) →
        (hg.map Prod.snd).sum = tC7.rows.length)) :=
  ⟨by decide, by decide, c7_weekday_histogram_shape tC7 (by decide)⟩

/-! ### C8: focus histogram bound and order -/

/-- C8: whenever the focus histogram is produced, it has at most 10 entries
and its counts are non-increasing in list order. -/
theorem c8_focus_histogram_bound (df : Table) (l : List (Cell × Nat))
    (h : focus_histogram df = some l) :
    l.length ≤ 10 ∧ List.Chain' RDesc l := by
  unfold focus_histogram at h
  by_cases hc : "foco_principal_do_dia" ∈ df.cols ∧ df.rows ≠ []
  · rw [if_pos hc] at h
    cases hix : df.colIdx "foco_principal_do_dia" with
    | none =>
      rw [hix] at h
      exact Option.noConfusion h
    | some i =>
      rw [hix] at h
      have hl : l = (valueCounts (colVals df i)).take 10 := (Option.some.inj h).symm
      constructor
      · rw [hl, List.length_take]
        exact min_le_left _ _
      · rw [hl]
        exact (chain_sortDesc _).take 10
  · rw [if_neg hc] at h
    exact Option.noConfusion h

def tC8 : Table :=
  ⟨["foco_principal_do_dia"], [[Cell.str "A"], [Cell.str "B"], [Cell.str "A"]]⟩

/-- Witness for C8 at a concrete three-row table. -/
theorem c8_witness :
    (focus_histogram tC8 = some [(Cell.str "A", 2), (Cell.str "B", 1)]) ∧
    ([(Cell.str "A", 2), (Cell.str "B", 1)].length ≤ 10 ∧
      List.Chain' RDesc [(Cell.str "A", 2), (Cell.str "B", 1)]) :=
  ⟨by decide, c8_focus_histogram_bound tC8 [(Cell.str "A", 2), (Cell.str "B", 1)] (by decide)⟩

/-! ### C6: load failure degrades to an empty table -/

theorem filtered_empty (fs : FilterSpec) : filtered emptyTable fs = emptyTable := by
  unfold filtered
  have h1 : filterWeekdays emptyTable fs.selected_days = emptyTable := by
    unfold filterWeekdays
    rw [if_neg (by decide)]
  rw [h1]
  unfold filterFocus
  rw [if_neg (by decide)]

/-- C6: an unreadable payload makes `load_data` surface an error message
built from the exception's cause and return the empty table, and every
downstream derived output tolerates that empty table (sentinels, zero counts,
no failure). -/
theorem c6_load_error_yields_empty_table :
    ∀ (e : String) (fs : FilterSpec) (today : Nat × Nat × Nat),
      load_data (.error e) = (emptyTable, some (errPre ++ e ++ errSuf)) ∧
      (load_data (.error e)).1.rows.length = 0 ∧
      filtered emptyTable fs = emptyTable ∧
      total_records (filtered emptyTable fs) = 0 ∧
      top_weekday emptyTable = none ∧
      distinct_focus emptyTable = none ∧
      today_actions emptyTable today = none ∧
      daily_detail emptyTable = .ok none ∧
      focus_histogram emptyTable = none ∧
      weekday_histogram emptyTable = none := by
  intro e fs today
  refine ⟨rfl, rfl, filtered_empty fs, ?_, rfl, rfl, rfl, rfl, rfl, rfl⟩
  rw [filtered_empty fs]
  rfl

/-! ### C1: daily detail versus a missing `data` column -/

/-- A non-empty filtered table without a `data` column (and with the other
soft-schema columns in place). -/
def tC1 : Table := ⟨["dia", "foco_principal_do_dia"], [[Cell.str "Seg", Cell.str "Planejamento"]]⟩

/-- C1 exhibit: on a non-empty filtered table without a `data` column, every
other derived output degrades to its sentinel, but the daily-detail sort of
line 146 runs unguarded and raises `KeyError` instead of degrading. -/
theorem c1_daily_detail_raises :
    tC1.rows ≠ [] ∧ "data" ∉ tC1.cols ∧
    daily_detail tC1 = .error "KeyError: data" ∧
    today_actions tC1 (2024, 1, 1) = none ∧
    weekday_histogram tC1 = none ∧
    focus_histogram tC1 = some [(Cell.str "Planejamento", 1)] ∧
    top_weekday tC1 = none ∧
    distinct_focus tC1 = some 1 :=
  ⟨by decide, by decide, rfl, by decide, by decide, by decide, by decide, by decide⟩

/-! ### C2: the keyword filter versus missing values -/

/-- A table whose single row has a missing focus value. -/
def tC2 : Table := ⟨["foco_principal_do_dia"], [[Cell.missing]]⟩

/-- C2 exhibit: `astype(str)` renders the missing focus value as the literal
string "nan", so the row is kept by the keywords "nan", "NAN" and "a"
(`na=False` never fires), while a keyword not occurring in "nan" drops it. -/
theorem c2_nan_keyword_matches_missing :
    filterFocus tC2 "nan" = tC2 ∧
    filterFocus tC2 "NAN" = tC2 ∧
    filterFocus tC2 "a" = tC2 ∧
    (filterFocus tC2 "xyz").rows = [] ∧
    cellToStr Cell.missing = "nan" := by decide

/-! ### C9: colliding labels are kept side by side, not overwritten -/

theorem two_le_countP {α : Type} (p : α → Bool) :
    ∀ (l : List α) (i j : Nat), i < j → ∀ {a b : α},
      l.get? i = some a → l.get? j = some b → p a = true → p b = true →
      2 ≤ l.countP p := by
  intro l
  induction l with
  | nil =>
    intro i j _ a b ha
    simp [List.get?] at ha
  | cons c t ih =>
    intro i j hij a b ha hb hpa hpb
    cases j with
    | zero => omega
    | succ j2 =>
      have hbt : b ∈ t := List.get?_mem hb
      cases i with
      | zero =>
        have hca : c = a := Option.some.inj ha
        rw [List.countP_cons]
        have h1 : 0 < t.countP p := List.countP_pos_iff.mpr ⟨b, hbt, hpb⟩
        have hpc : p c = true := by rw [hca]; exact hpa
        rw [if_pos hpc]
        omega
      | succ i2 =>
        have := ih i2 j2 (by omega) ha hb hpa hpb
        rw [List.countP_cons]
        omega

/-- Two raw labels that collide after normalization. -/
def tC9 : Table :=
  ⟨["Foco Principal", "Foco*Principal"], [[Cell.str "primeira", Cell.str "segunda"]]⟩

/-- C9 counterexample: on `tC9` the two raw labels both normalize to
`foco_principal`, yet the canonical column list holds that key twice — not
"exactly once" — and no value is overwritten (the rows are untouched). -/
theorem c9_counterexample :
    normKey "Foco Principal" = "foco_principal" ∧
    normKey "Foco*Principal" = "foco_principal" ∧
    "Foco Principal" ≠ "Foco*Principal" ∧
    ¬countKey (renameCols tC9).cols "foco_principal" = 1 ∧
    (renameCols tC9).cols = ["foco_principal", "foco_principal"] ∧
    (renameCols tC9).rows = tC9.rows := by decide

/-- C9 (amended): when two distinct raw labels normalize to the same key,
renaming keeps both columns under the duplicated key (the key occurs at least
twice, and exactly once per colliding raw label), and no column's values are
overwritten: the rows are unchanged. -/
theorem c9_later_column_does_not_overwrite (t : Table) (i j : Nat) (a b : String)
    (hij : i < j) (ha : t.cols.get? i = some a) (hb : t.cols.get? j = some b)
    (hk : normKey a = normKey b) :
    2 ≤ countKey (renameCols t).cols (normKey b) ∧
    countKey (renameCols t).cols (normKey b)
      = t.cols.countP (fun c => decide (normKey c = normKey b)) ∧
    (renameCols t).rows = t.rows := by
  have hcount : countKey (renameCols t).cols (normKey b)
      = t.cols.countP (fun c => decide (normKey c = normKey b)) := by
    unfold countKey renameCols
    rw [List.countP_map]
    rfl
  refine ⟨?_, hcount, rfl⟩
  rw [hcount]
  exact two_le_countP _ t.cols i j hij ha hb (by simp [hk]) (by simp)

/-- Witness for the amended C9 at the concrete colliding table. -/
theorem c9_witness :
    (0 < 1) ∧ (tC9.cols.get? 0 = some "Foco Principal") ∧
    (tC9.cols.get? 1 = some "Foco*Principal") ∧
    (normKey "Foco Principal" = normKey "Foco*Principal") ∧
    2 ≤ countKey (renameCols tC9).cols (normKey "Foco*Principal") :=
  ⟨by decide, rfl, rfl, by decide,
    (c9_later_column_does_not_overwrite tC9 0 1 "Foco Principal" "Foco*Principal"
      (by decide) rfl rfl (by decide)).1⟩

end PlanoAcao
